import Mathlib

/-!
# Verification of `wordcount::count` (src/lib.rs)

A shallow embedding of the `count` function of the `wordcount` crate.
The Rust function reads a `BufRead` source line by line (`input.lines()`),
panics (`unwrap`) when a line is not valid UTF-8, and accumulates a
`HashMap<String, usize>` according to a `CountOption`:

* `Char`: one token per Unicode scalar value of the line,
* `Word`: one token per match of the regex `\w+` on the line,
* `Line`: the whole line (terminator stripped) is one token.

The embedding works on the raw byte stream (`List Nat`, each entry a byte):
line splitting and UTF-8 decoding are modelled explicitly, so that the
fatal-on-invalid-UTF-8 behaviour is visible as an `Option` result
(`none` = the Rust panic, no table returned).

The regex crate's `\w` is a Unicode-aware word-character class whose full
table is external to this repository and is not reproduced here.  The
scanner and the counter are therefore parametrized by the word-character
class `isW : Char → Bool`, and every structural Word-mode theorem is
proved for an arbitrary `isW` — the crate's actual class is one instance,
so the theorems apply to the program's behaviour on all valid UTF-8
input, non-ASCII included.  The executable instance `isWordChar` (the
ASCII fragment, which agrees with `\w` on ASCII text) is used only to
compute the spec's concrete all-ASCII scenarios.
-/

namespace Wordcount

/-- The `CountOption` enum of src/lib.rs: count chars, words or lines. -/
inductive CountOption where
  | Char
  | Word
  | Line
deriving DecidableEq

/-- The `Default` impl of src/lib.rs: the default option is `Word`. -/
def CountOption.default : CountOption := CountOption.Word

/-- The ASCII fragment of the word-character class: letters, digits and
the underscore.  On ASCII text this coincides with the regex crate's
Unicode-aware `\w`, so it is a faithful instance for the spec's concrete
all-ASCII scenarios; the structural Word-mode theorems below do not use
it — they hold for an arbitrary class `isW`, hence in particular for the
crate's full Unicode-aware class. -/
def isWordChar (c : Char) : Bool := c.isAlphanum || c = '_'

/-- A UTF-8 continuation byte: `0x80 ≤ b ≤ 0xBF`. -/
def isCont (b : Nat) : Bool := 0x80 ≤ b && b ≤ 0xBF

/-- Modelled from Rust's `String::from_utf8` validation performed by
`BufRead::read_line` (the `line.unwrap()` in src/lib.rs panics exactly
when this fails): strict UTF-8 decoding of a byte sequence into Unicode
scalar values.  Overlong encodings, surrogates and out-of-range leads are
rejected, per the UTF-8 specification that Rust enforces. -/
def decodeUtf8 : List Nat → Option (List Char)
  | [] => some []
  | b₀ :: rest =>
    if b₀ < 0x80 then
      (decodeUtf8 rest).map (Char.ofNat b₀ :: ·)
    else if 0xC2 ≤ b₀ && b₀ ≤ 0xDF then
      match rest with
      | b₁ :: r =>
        if isCont b₁ then
          (decodeUtf8 r).map (Char.ofNat ((b₀ - 0xC0) * 0x40 + (b₁ - 0x80)) :: ·)
        else none
      | [] => none
    else if 0xE0 ≤ b₀ && b₀ ≤ 0xEF then
      match rest with
      | b₁ :: b₂ :: r =>
        let lo₁ : Nat := if b₀ = 0xE0 then 0xA0 else 0x80
        let hi₁ : Nat := if b₀ = 0xED then 0x9F else 0xBF
        if (lo₁ ≤ b₁ && b₁ ≤ hi₁) && isCont b₂ then
          (decodeUtf8 r).map
            (Char.ofNat ((b₀ - 0xE0) * 0x1000 + (b₁ - 0x80) * 0x40 + (b₂ - 0x80)) :: ·)
        else none
      | _ => none
    else if 0xF0 ≤ b₀ && b₀ ≤ 0xF4 then
      match rest with
      | b₁ :: b₂ :: b₃ :: r =>
        let lo₁ : Nat := if b₀ = 0xF0 then 0x90 else 0x80
        let hi₁ : Nat := if b₀ = 0xF4 then 0x8F else 0xBF
        if (lo₁ ≤ b₁ && b₁ ≤ hi₁) && (isCont b₂ && isCont b₃) then
          (decodeUtf8 r).map
            (Char.ofNat ((b₀ - 0xF0) * 0x40000 + (b₁ - 0x80) * 0x1000 +
              (b₂ - 0x80) * 0x40 + (b₃ - 0x80)) :: ·)
        else none
      | _ => none
    else none

/-- Modelled from Rust's `BufRead::lines` terminator stripping: a line that
was terminated by `\n` drops that `\n`, and then one trailing `\r` if
present.  `acc` holds the bytes of the current line in reverse order. -/
def emitLine (acc : List Nat) : List Nat :=
  match acc with
  | [] => []
  | b :: t => if b = 13 then t.reverse else (b :: t).reverse

/-- Modelled from Rust's `BufRead::lines` iterator used by `count`:
split the byte stream at each `\n` (byte 10), stripping the terminator
(`\n` or `\r\n`) from each emitted line; a final segment without a
terminator is still a line (and keeps a lone trailing `\r`); exhausted
input yields no further line. -/
def linesGo (acc : List Nat) : List Nat → List (List Nat)
  | [] => if acc.isEmpty then [] else [acc.reverse]
  | b :: rest =>
    if b = 10 then emitLine acc :: linesGo [] rest
    else linesGo (b :: acc) rest

/-- The sequence of lines of a byte stream, as `input.lines()` yields them
(before UTF-8 validation, which `Lines` performs per line). -/
def linesOf (input : List Nat) : List (List Nat) := linesGo [] input

/-- The frequency table `HashMap<String, usize>` of src/lib.rs, modelled as
an association list with pairwise distinct keys (kept in first-insertion
order; the `HashMap` leaves iteration order unspecified, and every claim
is read at the mapping level: key membership and per-key lookup). -/
abbrev Freqs := List (String × Nat)

/-- `*freqs.entry(k).or_insert(0) += 1` of src/lib.rs: insert the key with
count `0+1 = 1` on first occurrence, otherwise increment its count. -/
def incr : Freqs → String → Freqs
  | [], k => [(k, 1)]
  | (k', v) :: rest, k =>
    if k' = k then (k', v + 1) :: rest else (k', v) :: incr rest k

/-- The count stored for a key, `0` when the key is absent (a `HashMap`
lookup of a missing key, seen through `or_insert(0)`). -/
def lookupD : Freqs → String → Nat
  | [], _ => 0
  | (k', v) :: rest, k => if k' = k then v else lookupD rest k

/-- The key set of a frequency table. -/
def keys (t : Freqs) : List String := t.map Prod.fst

/-- The sum of all counts of a frequency table. -/
def sumVals (t : Freqs) : Nat := (t.map Prod.snd).sum

/-- Modelled from the regex crate's `find_iter` on `\w+` (called in
src/lib.rs), for an arbitrary word-character class `isW`: scan the
characters left to right, collecting the maximal runs of characters of
the class; `acc` holds the current run in reverse order. -/
def wordRunsGo (isW : Char → Bool) (acc : List Char) :
    List Char → List (List Char)
  | [] => if acc.isEmpty then [] else [acc.reverse]
  | c :: rest =>
    if isW c then wordRunsGo isW (c :: acc) rest
    else if acc.isEmpty then wordRunsGo isW [] rest
    else acc.reverse :: wordRunsGo isW [] rest

/-- The maximal runs of `isW`-characters of a line. -/
def wordRuns (isW : Char → Bool) (cs : List Char) : List (List Char) :=
  wordRunsGo isW [] cs

/-- The list of tokens one decoded line contributes under each option,
following the three `match option` arms of `count` in src/lib.rs:
`Char` tokenizes into the `c.to_string()` of each scalar value, `Word`
into the `m.as_str().to_string()` of each `\w+` match (`isW` being the
matcher's word-character class), `Line` into the single token
`line.to_string()`. -/
def tokensOfLine (isW : Char → Bool) (option : CountOption)
    (cs : List Char) : List String :=
  match option with
  | CountOption.Char => cs.map (fun c => String.mk [c])
  | CountOption.Word => (wordRuns isW cs).map (fun r => String.mk r)
  | CountOption.Line => [String.mk cs]

/-- The line loop of `count` in src/lib.rs, for word-character class
`isW`: process the remaining lines in order against the table built so
far.  A line that fails UTF-8 decoding makes `line.unwrap()` panic: the
whole computation aborts with no table, modelled by `none`; lines already
processed are lost. -/
def countGoOn (isW : Char → Bool) (option : CountOption) :
    List (List Nat) → Freqs → Option Freqs
  | [], freqs => some freqs
  | l :: rest, freqs =>
    match decodeUtf8 l with
    | none => none
    | some cs =>
      countGoOn isW option rest (List.foldl incr freqs (tokensOfLine isW option cs))

/-- `pub fn count(input: impl BufRead, option: CountOption)` of src/lib.rs,
on the byte stream the `BufRead` yields and with word-character class
`isW`: split into lines, then run the line loop from the empty table. -/
def countOn (isW : Char → Bool) (input : List Nat) (option : CountOption) :
    Option Freqs :=
  countGoOn isW option (linesOf input) []

/-- The line loop at the executable ASCII instance of the word class
(exact on ASCII input; the generic theorems cover every class). -/
def countGo (option : CountOption) (lines : List (List Nat))
    (freqs : Freqs) : Option Freqs :=
  countGoOn isWordChar option lines freqs

/-- `count` at the executable ASCII instance of the word class, used to
compute the spec's concrete all-ASCII scenarios (exact there; the generic
theorems over `countOn` cover every class, the crate's included). -/
def count (input : List Nat) (option : CountOption) : Option Freqs :=
  countOn isWordChar input option

/-- All tokens of a list of decoded lines, in processing order. -/
def allTokens (isW : Char → Bool) (option : CountOption)
    (ls : List (List Char)) : List String :=
  ls.flatMap (tokensOfLine isW option)

/-- Modelled from the spec: `rs` is the decomposition of the line `cs`
into its maximal runs of `isW`-word characters, in order — the line is an
alternation of (possibly empty) separator stretches of non-word
characters and nonempty all-word runs, each run followed by a non-word
character or the end of the line (so no run can be extended). -/
inductive MaxRuns (isW : Char → Bool) : List Char → List (List Char) → Prop where
  | nil (sep : List Char) (hsep : ∀ c ∈ sep, isW c = false) :
      MaxRuns isW sep []
  | cons (sep w rest : List Char) (rs : List (List Char))
      (hsep : ∀ c ∈ sep, isW c = false)
      (hw : w ≠ [])
      (hword : ∀ c ∈ w, isW c = true)
      (hmax : ∀ d rest', rest = d :: rest' → isW d = false)
      (htail : MaxRuns isW rest rs) :
      MaxRuns isW (sep ++ (w ++ rest)) (w :: rs)

/-- The number of occurrences of `a` in a list (a `DecidableEq`-based
occurrence counter, used to state counting properties). -/
def occs {α : Type} [DecidableEq α] (a : α) : List α → Nat
  | [] => 0
  | b :: l => (if b = a then 1 else 0) + occs a l

theorem occs_append {α : Type} [DecidableEq α] (a : α) (l₁ l₂ : List α) :
    occs a (l₁ ++ l₂) = occs a l₁ + occs a l₂ := by
  induction l₁ with
  | nil => simp [occs]
  | cons b l ih => simp [occs, ih]; omega

theorem occs_map_inj {α β : Type} [DecidableEq α] [DecidableEq β]
    (f : α → β) (hf : ∀ a b, f a = f b → a = b) (l : List α) (x : α) :
    occs (f x) (l.map f) = occs x l := by
  induction l with
  | nil => simp [occs]
  | cons a l ih =>
    by_cases h : a = x
    · subst h; simp [occs, ih]
    · have h2 : ¬f a = f x := fun hh => h (hf a x hh)
      simp [occs, ih, h, h2]

/-! ## Frequency-table lemmas -/

theorem lookupD_incr_self (t : Freqs) (k : String) :
    lookupD (incr t k) k = lookupD t k + 1 := by
  induction t with
  | nil => simp [incr, lookupD]
  | cons p rest ih =>
    obtain ⟨k', v⟩ := p
    by_cases h : k' = k <;> simp [incr, lookupD, h, ih]

theorem keys_cons (p : String × Nat) (t : Freqs) :
    keys (p :: t) = p.1 :: keys t := rfl

theorem lookupD_incr_ne (t : Freqs) (k k' : String) (h : k' ≠ k) :
    lookupD (incr t k) k' = lookupD t k' := by
  induction t with
  | nil => simp [incr, lookupD, Ne.symm h]
  | cons p rest ih =>
    obtain ⟨k'', v⟩ := p
    by_cases h2 : k'' = k
    · subst h2
      have h3 : ¬k'' = k' := fun hh => h hh.symm
      simp [incr, lookupD, h3]
    · by_cases h3 : k'' = k' <;> simp [incr, lookupD, h, h2, h3, ih]

theorem lookupD_foldl_incr (ts : List String) :
    ∀ (t : Freqs) (k : String),
      lookupD (List.foldl incr t ts) k = lookupD t k + occs k ts := by
  induction ts with
  | nil => intro t k; simp [occs]
  | cons s rest ih =>
    intro t k
    by_cases h : s = k
    · subst h
      simp [List.foldl_cons, ih, lookupD_incr_self, occs]
      omega
    · have h' : k ≠ s := fun hh => h hh.symm
      simp [List.foldl_cons, ih, lookupD_incr_ne t s k h', occs, h]

theorem sumVals_incr (t : Freqs) (k : String) :
    sumVals (incr t k) = sumVals t + 1 := by
  induction t with
  | nil => simp [incr, sumVals]
  | cons p rest ih =>
    obtain ⟨k', v⟩ := p
    by_cases h : k' = k <;> simp [incr, sumVals, h] <;>
      simp [sumVals] at ih <;> omega

theorem sumVals_foldl_incr (ts : List String) :
    ∀ t : Freqs, sumVals (List.foldl incr t ts) = sumVals t + ts.length := by
  induction ts with
  | nil => intro t; simp
  | cons s rest ih =>
    intro t
    simp [List.foldl_cons, ih, sumVals_incr]
    omega

theorem mem_keys_incr (t : Freqs) (k k' : String)
    (h : k' ∈ keys (incr t k)) : k' ∈ keys t ∨ k' = k := by
  induction t with
  | nil => simp [incr, keys] at h; simp [h]
  | cons p rest ih =>
    obtain ⟨k'', v⟩ := p
    by_cases h2 : k'' = k
    · subst h2
      rw [show incr ((k'', v) :: rest) k'' = (k'', v + 1) :: rest by
        simp [incr]] at h
      rw [keys_cons] at h
      rw [keys_cons]
      exact Or.inl h
    · rw [show incr ((k'', v) :: rest) k = (k'', v) :: incr rest k by
        simp [incr, h2]] at h
      rw [keys_cons] at h
      rw [keys_cons]
      rcases List.mem_cons.mp h with h | h
      · exact Or.inl (List.mem_cons.mpr (Or.inl h))
      · rcases ih h with h3 | h3
        · exact Or.inl (List.mem_cons.mpr (Or.inr h3))
        · exact Or.inr h3

theorem mem_keys_foldl_incr (ts : List String) :
    ∀ (t : Freqs) (k : String),
      k ∈ keys (List.foldl incr t ts) → k ∈ keys t ∨ k ∈ ts := by
  induction ts with
  | nil => intro t k h; simp at h ⊢; exact h
  | cons s rest ih =>
    intro t k h
    rcases ih (incr t s) k h with h2 | h2
    · rcases mem_keys_incr t s k h2 with h3 | h3
      · tauto
      · simp [h3]
    · simp [h2]

theorem incr_pos (t : Freqs) (k : String)
    (h : ∀ p ∈ t, 1 ≤ p.2) : ∀ p ∈ incr t k, 1 ≤ p.2 := by
  induction t with
  | nil => simp [incr]
  | cons q rest ih =>
    obtain ⟨k', v⟩ := q
    intro p hp
    by_cases h2 : k' = k
    · simp [incr, h2] at hp
      rcases hp with hp | hp
      · simp [hp]
      · exact h p (by simp [hp])
    · simp [incr, h2] at hp
      rcases hp with hp | hp
      · exact h p (by simp [hp])
      · exact ih (fun q hq => h q (by simp [hq])) p hp

theorem foldl_incr_pos (ts : List String) :
    ∀ t : Freqs, (∀ p ∈ t, 1 ≤ p.2) →
      ∀ p ∈ List.foldl incr t ts, 1 ≤ p.2 := by
  induction ts with
  | nil => intro t h; simpa using h
  | cons s rest ih =>
    intro t h
    exact ih (incr t s) (incr_pos t s h)

theorem lookupD_pos_of_mem_keys (t : Freqs) (k : String)
    (hpos : ∀ p ∈ t, 1 ≤ p.2) (hk : k ∈ keys t) : 1 ≤ lookupD t k := by
  induction t with
  | nil => simp [keys] at hk
  | cons p rest ih =>
    obtain ⟨k', v⟩ := p
    by_cases h : k' = k
    · subst h
      simpa [lookupD] using hpos (k', v) (by simp)
    · rw [keys_cons] at hk
      rcases List.mem_cons.mp hk with hk | hk
      · exact absurd hk.symm h
      · simpa [lookupD, h] using
          ih (fun q hq => hpos q (by simp [hq])) hk

/-! ## The line loop as a fold over all tokens -/

/-- Decode every line, failing as soon as one line is not valid UTF-8. -/
def decodeAll : List (List Nat) → Option (List (List Char))
  | [] => some []
  | l :: rest =>
    match decodeUtf8 l with
    | none => none
    | some cs => (decodeAll rest).map (cs :: ·)

theorem countGoOn_eq (isW : Char → Bool) (option : CountOption)
    (lines : List (List Nat)) :
    ∀ t : Freqs, countGoOn isW option lines t =
      (decodeAll lines).map
        (fun ls => List.foldl incr t (allTokens isW option ls)) := by
  induction lines with
  | nil => intro t; simp [countGoOn, decodeAll, allTokens]
  | cons l rest ih =>
    intro t
    cases hd : decodeUtf8 l with
    | none => simp [countGoOn, decodeAll, hd]
    | some cs =>
      simp only [countGoOn, decodeAll, hd]
      rw [ih]
      cases hm : decodeAll rest with
      | none => simp [hm]
      | some ls => simp [hm, allTokens, List.foldl_append]

theorem countOn_eq (isW : Char → Bool) (input : List Nat)
    (option : CountOption) :
    countOn isW input option =
      (decodeAll (linesOf input)).map
        (fun ls => List.foldl incr [] (allTokens isW option ls)) :=
  countGoOn_eq isW option (linesOf input) []

theorem countOn_eq_some (isW : Char → Bool) (input : List Nat)
    (option : CountOption) (t : Freqs) :
    countOn isW input option = some t ↔
      ∃ ls, decodeAll (linesOf input) = some ls ∧
        t = List.foldl incr [] (allTokens isW option ls) := by
  rw [countOn_eq]
  cases h : decodeAll (linesOf input) <;> simp [h, eq_comm]

theorem decodeAll_none (lines : List (List Nat)) (l : List Nat)
    (hmem : l ∈ lines) (hdec : decodeUtf8 l = none) :
    decodeAll lines = none := by
  induction lines with
  | nil => simp at hmem
  | cons l' rest ih =>
    rcases List.mem_cons.mp hmem with h | h
    · subst h; simp [decodeAll, hdec]
    · cases hd : decodeUtf8 l' <;> simp [decodeAll, hd, ih h]

theorem occs_flatMap {α β : Type} [DecidableEq β] (ls : List α)
    (f : α → List β) (b : β) :
    occs b (ls.flatMap f) = (ls.map (fun l => occs b (f l))).sum := by
  induction ls <;> simp [occs, occs_append, *]

theorem length_flatMap {α β : Type} (ls : List α) (f : α → List β) :
    (ls.flatMap f).length = (ls.map (fun l => (f l).length)).sum := by
  induction ls <;> simp [*]

/-! ## Word-run lemmas (for an arbitrary word-character class) -/

theorem wordRunsGo_acc (isW : Char → Bool) (cs : List Char) :
    ∀ acc : List Char, acc ≠ [] →
      wordRunsGo isW acc cs =
        (acc.reverse ++ cs.takeWhile isW) ::
          wordRuns isW (cs.dropWhile isW) := by
  induction cs with
  | nil =>
    intro acc hacc
    simp [wordRunsGo, wordRuns, hacc]
  | cons c rest ih =>
    intro acc hacc
    by_cases hc : isW c
    · rw [show wordRunsGo isW acc (c :: rest) = wordRunsGo isW (c :: acc) rest by
        simp [wordRunsGo, hc]]
      rw [ih (c :: acc) (by simp)]
      simp [hc]
    · rw [show wordRunsGo isW acc (c :: rest) =
        acc.reverse :: wordRunsGo isW [] rest by
        simp [wordRunsGo, hc, hacc]]
      rw [show wordRunsGo isW [] rest = wordRuns isW (c :: rest) by
        simp [wordRuns, wordRunsGo, hc]]
      simp [hc]

theorem wordRuns_cons_sep (isW : Char → Bool) (c : Char) (cs : List Char)
    (hc : isW c = false) : wordRuns isW (c :: cs) = wordRuns isW cs := by
  simp [wordRuns, wordRunsGo, hc]

theorem wordRuns_cons_word (isW : Char → Bool) (c : Char) (cs : List Char)
    (hc : isW c = true) :
    wordRuns isW (c :: cs) =
      (c :: cs.takeWhile isW) :: wordRuns isW (cs.dropWhile isW) := by
  rw [show wordRuns isW (c :: cs) = wordRunsGo isW [c] cs by
    simp [wordRuns, wordRunsGo, hc]]
  rw [wordRunsGo_acc isW cs [c] (by simp)]
  simp

theorem wordRuns_sep_append (isW : Char → Bool) (sep : List Char)
    (hsep : ∀ c ∈ sep, isW c = false) (cs : List Char) :
    wordRuns isW (sep ++ cs) = wordRuns isW cs := by
  induction sep with
  | nil => simp
  | cons c rest ih =>
    rw [List.cons_append, wordRuns_cons_sep isW c _ (hsep c (by simp))]
    exact ih (fun d hd => hsep d (by simp [hd]))

theorem wordRuns_eq_nil (isW : Char → Bool) (cs : List Char)
    (hsep : ∀ c ∈ cs, isW c = false) : wordRuns isW cs = [] := by
  have h := wordRuns_sep_append isW cs hsep []
  simpa using h

theorem wordRunsGo_runs (isW : Char → Bool) (cs : List Char) :
    ∀ acc : List Char, (∀ c ∈ acc, isW c = true) →
      ∀ r ∈ wordRunsGo isW acc cs, r ≠ [] ∧ ∀ c ∈ r, isW c = true := by
  induction cs with
  | nil =>
    intro acc hacc r hr
    by_cases h : acc.isEmpty
    · simp [wordRunsGo, h] at hr
    · simp [wordRunsGo, h] at hr
      subst hr
      refine ⟨by simpa [List.isEmpty_iff] using h, ?_⟩
      intro c hc
      exact hacc c (by simpa using hc)
  | cons c rest ih =>
    intro acc hacc r hr
    by_cases hc : isW c
    · rw [show wordRunsGo isW acc (c :: rest) = wordRunsGo isW (c :: acc) rest by
        simp [wordRunsGo, hc]] at hr
      have hacc' : ∀ d ∈ c :: acc, isW d = true := by
        intro d hd
        rcases List.mem_cons.mp hd with h | h
        · subst h; exact hc
        · exact hacc d h
      exact ih (c :: acc) hacc' r hr
    · by_cases hacc2 : acc.isEmpty
      · rw [show wordRunsGo isW acc (c :: rest) = wordRunsGo isW [] rest by
          simp [wordRunsGo, hc, hacc2]] at hr
        exact ih [] (by simp) r hr
      · rw [show wordRunsGo isW acc (c :: rest) =
          acc.reverse :: wordRunsGo isW [] rest by
          simp [wordRunsGo, hc, hacc2]] at hr
        rcases List.mem_cons.mp hr with h | h
        · subst h
          refine ⟨by simpa [List.isEmpty_iff] using hacc2, ?_⟩
          intro d hd
          exact hacc d (by simpa using hd)
        · exact ih [] (by simp) r h

theorem wordRuns_runs (isW : Char → Bool) (cs : List Char) :
    ∀ r ∈ wordRuns isW cs, r ≠ [] ∧ ∀ c ∈ r, isW c = true :=
  wordRunsGo_runs isW cs [] (by simp)

/-! ## `wordRuns` is the maximal-run decomposition -/

theorem maxRuns_cons_sep (isW : Char → Bool) (c : Char) (cs : List Char)
    (rs : List (List Char)) (hc : isW c = false) (h : MaxRuns isW cs rs) :
    MaxRuns isW (c :: cs) rs := by
  cases h with
  | nil sep hsep =>
    refine MaxRuns.nil (c :: cs) ?_
    intro d hd
    rcases List.mem_cons.mp hd with h | h
    · subst h; exact hc
    · exact hsep d h
  | cons sep w rest rs' hsep hw hword hmax htail =>
    refine MaxRuns.cons (c :: sep) w rest rs' ?_ hw hword hmax htail
    intro d hd
    rcases List.mem_cons.mp hd with h | h
    · subst h; exact hc
    · exact hsep d h

theorem dropWhile_head_not {α : Type} (p : α → Bool) (l : List α)
    (d : α) (rest : List α) (h : l.dropWhile p = d :: rest) : p d = false := by
  have h2 := List.head?_dropWhile_not p l
  rw [h] at h2
  simpa using h2

theorem maxRuns_wordRuns_aux (isW : Char → Bool) (n : Nat) :
    ∀ cs : List Char, cs.length ≤ n → MaxRuns isW cs (wordRuns isW cs) := by
  induction n with
  | zero =>
    intro cs hn
    rw [List.length_eq_zero.mp (Nat.le_zero.mp hn)]
    exact MaxRuns.nil [] (by simp)
  | succ n ih =>
    intro cs hn
    match cs with
    | [] => exact MaxRuns.nil [] (by simp)
    | c :: rest =>
      by_cases hc : isW c
      · rw [wordRuns_cons_word isW c rest hc]
        have hshape : c :: rest =
            [] ++ ((c :: rest.takeWhile isW) ++ rest.dropWhile isW) := by
          simp [List.takeWhile_append_dropWhile]
        rw [hshape]
        refine MaxRuns.cons [] (c :: rest.takeWhile isW)
          (rest.dropWhile isW) _ (by simp) (by simp) ?_ ?_ ?_
        · intro d hd
          rcases List.mem_cons.mp hd with h | h
          · subst h; exact hc
          · exact List.mem_takeWhile_imp h
        · intro d rest' hdrop
          exact dropWhile_head_not isW rest d rest' hdrop
        · refine ih (rest.dropWhile isW) ?_
          have h1 : (rest.dropWhile isW).length ≤ rest.length :=
            (List.dropWhile_sublist isW).length_le
          have h2 : rest.length ≤ n := by simpa using hn
          omega
      · rw [wordRuns_cons_sep isW c rest (by simpa using hc)]
        exact maxRuns_cons_sep isW c rest _ (by simpa using hc)
          (ih rest (by simpa using hn))

theorem maxRuns_wordRuns (isW : Char → Bool) (cs : List Char) :
    MaxRuns isW cs (wordRuns isW cs) :=
  maxRuns_wordRuns_aux isW cs.length cs (Nat.le_refl _)

theorem maxRuns_unique (isW : Char → Bool) (cs : List Char)
    (rs : List (List Char)) (h : MaxRuns isW cs rs) : rs = wordRuns isW cs := by
  induction h with
  | nil sep hsep => exact (wordRuns_eq_nil isW sep hsep).symm
  | cons sep w rest rs hsep hw hword hmax htail ih =>
    rw [wordRuns_sep_append isW sep hsep]
    match w, hw with
    | c :: w', _ =>
      have hc : isW c = true := hword c (by simp)
      have htake : rest.takeWhile isW = [] := by
        match hr : rest with
        | [] => simp
        | d :: rest' =>
          have : isW d = false := hmax d rest' rfl
          simp [List.takeWhile_cons_of_neg, this]
      have hdrop : rest.dropWhile isW = rest := by
        match hr : rest with
        | [] => simp
        | d :: rest' =>
          have : isW d = false := hmax d rest' rfl
          simp [List.dropWhile_cons_of_neg, this]
      have hword' : ∀ d ∈ w', isW d = true :=
        fun d hd => hword d (by simp [hd])
      rw [List.cons_append, wordRuns_cons_word isW c (w' ++ rest) hc]
      rw [List.takeWhile_append_of_pos hword', List.dropWhile_append_of_pos hword']
      rw [htake, hdrop, ih]
      simp

/-! ## Line-splitting lemmas -/

theorem linesGo_append_newline (pre : List Nat) :
    ∀ (acc rest : List Nat), 10 ∉ pre →
      linesGo acc (pre ++ 10 :: rest) =
        emitLine (pre.reverse ++ acc) :: linesGo [] rest := by
  induction pre with
  | nil => intro acc rest _; simp [linesGo]
  | cons b pre' ih =>
    intro acc rest h
    have hb : ¬b = 10 := fun hh => h (by simp [hh])
    rw [List.cons_append,
      show linesGo acc (b :: (pre' ++ 10 :: rest)) =
        linesGo (b :: acc) (pre' ++ 10 :: rest) by simp [linesGo, hb]]
    rw [ih (b :: acc) rest (fun hh => h (by simp [hh]))]
    simp

theorem linesOf_append_newline (pre rest : List Nat) (h10 : 10 ∉ pre)
    (h13 : pre.getLast? ≠ some 13) :
    linesOf (pre ++ 10 :: rest) = pre :: linesOf rest := by
  rw [linesOf, linesGo_append_newline pre [] rest h10]
  have : emitLine (pre.reverse ++ []) = pre := by
    rw [List.append_nil]
    match hp : pre.reverse with
    | [] =>
      have hnil : pre = [] := by simpa using congrArg List.reverse hp
      simp [hnil, emitLine]
    | b :: t =>
      have hb : ¬b = 13 := by
        intro hh
        subst hh
        exact h13 (by rw [List.getLast?_eq_head?_reverse, hp]; rfl)
      have hrev := congrArg List.reverse hp
      rw [List.reverse_reverse] at hrev
      simp [emitLine, hb, hrev]
  rw [this]
  rfl

theorem linesOf_append_crlf (pre rest : List Nat) (h10 : 10 ∉ pre) :
    linesOf ((pre ++ [13]) ++ 10 :: rest) = pre :: linesOf rest := by
  rw [linesOf, linesGo_append_newline (pre ++ [13]) [] rest (by simp [h10])]
  have : emitLine ((pre ++ [13]).reverse ++ []) = pre := by
    simp [emitLine]
  rw [this]
  rfl

theorem linesGo_no_newline (bs : List Nat) :
    ∀ acc : List Nat, 10 ∉ bs → (acc ≠ [] ∨ bs ≠ []) →
      linesGo acc bs = [acc.reverse ++ bs] := by
  induction bs with
  | nil =>
    intro acc _ hne
    have : acc ≠ [] := by tauto
    simp [linesGo, this]
  | cons b bs' ih =>
    intro acc h _
    have hb : ¬b = 10 := fun hh => h (by simp [hh])
    rw [show linesGo acc (b :: bs') = linesGo (b :: acc) bs' by
      simp [linesGo, hb]]
    rw [ih (b :: acc) (fun hh => h (by simp [hh])) (Or.inl (by simp))]
    simp

theorem linesOf_no_newline (bs : List Nat) (h10 : 10 ∉ bs) (hne : bs ≠ []) :
    linesOf bs = [bs] := by
  rw [linesOf, linesGo_no_newline bs [] h10 (Or.inr hne)]
  rfl

theorem decodeAll_length (lines : List (List Nat)) :
    ∀ ls : List (List Char), decodeAll lines = some ls →
      ls.length = lines.length := by
  induction lines with
  | nil => intro ls h; simp [decodeAll] at h; simp [← h]
  | cons l rest ih =>
    intro ls h
    cases hd : decodeUtf8 l with
    | none => simp [decodeAll, hd] at h
    | some cs =>
      simp [decodeAll, hd] at h
      rcases h with ⟨ls', hls', rfl⟩
      simp [ih ls' hls']

/-! ## Helper corollaries about `countOn` -/

theorem countOn_lookupD (isW : Char → Bool) (input : List Nat)
    (option : CountOption) (ls : List (List Char)) (t : Freqs)
    (hls : decodeAll (linesOf input) = some ls)
    (ht : countOn isW input option = some t) (k : String) :
    lookupD t k = occs k (allTokens isW option ls) := by
  rcases (countOn_eq_some isW input option t).mp ht with ⟨ls', hls', rfl⟩
  rw [hls] at hls'
  obtain rfl : ls = ls' := by injection hls'
  rw [lookupD_foldl_incr]
  simp [lookupD]

theorem countOn_sumVals (isW : Char → Bool) (input : List Nat)
    (option : CountOption) (ls : List (List Char)) (t : Freqs)
    (hls : decodeAll (linesOf input) = some ls)
    (ht : countOn isW input option = some t) :
    sumVals t = (ls.map (fun cs => (tokensOfLine isW option cs).length)).sum := by
  rcases (countOn_eq_some isW input option t).mp ht with ⟨ls', hls', rfl⟩
  rw [hls] at hls'
  obtain rfl : ls = ls' := by injection hls'
  rw [sumVals_foldl_incr]
  calc sumVals ([] : Freqs) + (allTokens isW option ls).length
      = (ls.flatMap (tokensOfLine isW option)).length := by
        simp [sumVals, allTokens]
    _ = (ls.map (fun cs => (tokensOfLine isW option cs).length)).sum :=
      length_flatMap ls (tokensOfLine isW option)

theorem countOn_mem_keys (isW : Char → Bool) (input : List Nat)
    (option : CountOption) (t : Freqs)
    (ht : countOn isW input option = some t) :
    ∀ k ∈ keys t, ∃ ls, decodeAll (linesOf input) = some ls ∧
      ∃ cs ∈ ls, k ∈ tokensOfLine isW option cs := by
  rcases (countOn_eq_some isW input option t).mp ht with ⟨ls, hls, rfl⟩
  intro k hk
  rcases mem_keys_foldl_incr _ _ _ hk with h | h
  · simp [keys] at h
  · exact ⟨ls, hls, by simpa [allTokens, List.mem_flatMap] using h⟩

theorem allTokens_line (isW : Char → Bool) (ls : List (List Char)) :
    allTokens isW CountOption.Line ls = ls.map String.mk := by
  induction ls with
  | nil => rfl
  | cons cs rest ih =>
    simp only [allTokens] at ih ⊢
    simp [tokensOfLine, ih]

theorem word_key_prop (isW : Char → Bool) (input : List Nat) (t : Freqs)
    (ht : countOn isW input CountOption.Word = some t) :
    ∀ k ∈ keys t, k ≠ "" ∧ ∀ c ∈ k.data, isW c = true := by
  intro k hk
  rcases countOn_mem_keys isW input CountOption.Word t ht k hk with
    ⟨ls, hls, cs, hcs, hk2⟩
  simp only [tokensOfLine, List.mem_map] at hk2
  rcases hk2 with ⟨r, hr, rfl⟩
  have hrun := wordRuns_runs isW cs r hr
  constructor
  · intro hempty
    exact hrun.1 (by simpa using congrArg String.data hempty)
  · intro c hc
    exact hrun.2 c hc

/-! ## The claims -/

/-- C1: with mode `Word`, `count` tokenizes each line into the maximal
runs of word characters of the matcher's class `\w` and increments each
match's entry by one, so that non-word characters never appear in keys.
Stated for an arbitrary word-character class `isW`, hence in particular
for the regex crate's Unicode-aware class: the runs produced are exactly
the maximal-run decomposition of the line (both directions: the output
satisfies `MaxRuns`, and any `MaxRuns` decomposition is the output), the
final count of a key is the number of matches equal to it, and every key
is a nonempty string of class characters.  The concrete all-ASCII
single-line input `"aa bb cc bb"` (where the ASCII fragment of `\w` is
exact) yields exactly `{"aa": 1, "bb": 2, "cc": 1}`. -/
theorem C1_word_tokenization :
    (∀ (isW : Char → Bool) (cs : List Char), MaxRuns isW cs (wordRuns isW cs)) ∧
    (∀ (isW : Char → Bool) (cs : List Char) (rs : List (List Char)),
      MaxRuns isW cs rs → rs = wordRuns isW cs) ∧
    (∀ (isW : Char → Bool) (input : List Nat) (ls : List (List Char))
      (t : Freqs),
      decodeAll (linesOf input) = some ls →
      countOn isW input CountOption.Word = some t →
      ∀ k : String, lookupD t k = occs k (allTokens isW CountOption.Word ls)) ∧
    (∀ (isW : Char → Bool) (input : List Nat) (t : Freqs),
      countOn isW input CountOption.Word = some t →
      ∀ k ∈ keys t, k ≠ "" ∧ ∀ c ∈ k.data, isW c = true) ∧
    count [97, 97, 32, 98, 98, 32, 99, 99, 32, 98, 98] CountOption.Word =
      some [("aa", 1), ("bb", 2), ("cc", 1)] := by
  refine ⟨maxRuns_wordRuns, maxRuns_unique, ?_, word_key_prop, by decide⟩
  intro isW input ls t hls ht k
  exact countOn_lookupD isW input CountOption.Word ls t hls ht k

/-- Witness for C1: the hypotheses are satisfiable — on the concrete input
`"aa bb cc bb"` (at the ASCII instance of the class) the key `"bb"`
stores the number of `\w+` matches equal to `"bb"`. -/
theorem C1_word_tokenization_witness :
    lookupD [("aa", 1), ("bb", 2), ("cc", 1)] "bb" =
      occs "bb" (allTokens isWordChar CountOption.Word
        [['a', 'a', ' ', 'b', 'b', ' ', 'c', 'c', ' ', 'b', 'b']]) :=
  C1_word_tokenization.2.2.1 isWordChar
    [97, 97, 32, 98, 98, 32, 99, 99, 32, 98, 98]
    [['a', 'a', ' ', 'b', 'b', ' ', 'c', 'c', ' ', 'b', 'b']]
    [("aa", 1), ("bb", 2), ("cc", 1)] (by decide) (by decide) "bb"

/-- C2: for every successfully counted input, the sum of all counts equals
the total number of tokens of the chosen granularity — stated for an
arbitrary word-character class `isW`, hence in particular for the regex
crate's Unicode-aware `\w`: per line, `Word` contributes one token per
match (the matches being the maximal `isW`-runs), `Char` one per Unicode
scalar value, and with mode `Line` the sum equals the number of lines
read. -/
theorem C2_sum_of_counts :
    (∀ (isW : Char → Bool) (input : List Nat) (option : CountOption)
      (ls : List (List Char)) (t : Freqs),
      decodeAll (linesOf input) = some ls →
      countOn isW input option = some t →
      sumVals t = (ls.map (fun cs => (tokensOfLine isW option cs).length)).sum) ∧
    (∀ (isW : Char → Bool) (cs : List Char),
      (tokensOfLine isW CountOption.Word cs).length = (wordRuns isW cs).length) ∧
    (∀ (isW : Char → Bool) (cs : List Char),
      (tokensOfLine isW CountOption.Char cs).length = cs.length) ∧
    (∀ (isW : Char → Bool) (input : List Nat) (ls : List (List Char))
      (t : Freqs),
      decodeAll (linesOf input) = some ls →
      countOn isW input CountOption.Line = some t →
      sumVals t = (linesOf input).length) := by
  refine ⟨countOn_sumVals, by intro isW cs; simp [tokensOfLine],
    by intro isW cs; simp [tokensOfLine], ?_⟩
  intro isW input ls t hls ht
  rw [countOn_sumVals isW input CountOption.Line ls t hls ht]
  have h1 : ∀ l : List (List Char),
      (l.map (fun cs => (tokensOfLine isW CountOption.Line cs).length)).sum =
        l.length := by
    intro l
    induction l with
    | nil => simp
    | cons cs rest ih => simp [tokensOfLine, ih]; omega
  rw [h1, decodeAll_length (linesOf input) ls hls]

/-- Witness for C2: on the concrete input `"aa bb cc bb"` under `Word`
mode at the ASCII instance, the counts sum to the per-line numbers of
word matches. -/
theorem C2_sum_of_counts_witness :
    sumVals [("aa", 1), ("bb", 2), ("cc", 1)] =
      ([['a', 'a', ' ', 'b', 'b', ' ', 'c', 'c', ' ', 'b', 'b']].map
        (fun cs => (tokensOfLine isWordChar CountOption.Word cs).length)).sum :=
  C2_sum_of_counts.1 isWordChar [97, 97, 32, 98, 98, 32, 99, 99, 32, 98, 98]
    CountOption.Word [['a', 'a', ' ', 'b', 'b', ' ', 'c', 'c', ' ', 'b', 'b']]
    [("aa", 1), ("bb", 2), ("cc", 1)] (by decide) (by decide)

/-- C3: whenever some line of the input is not valid UTF-8, `count` fails
fatally for every mode: the result is `none` — no partial table is
returned, the failure is the operation's outcome. -/
theorem C3_invalid_utf8_fatal :
    ∀ (input : List Nat) (option : CountOption) (l : List Nat),
      l ∈ linesOf input → decodeUtf8 l = none →
      count input option = none := by
  intro input option l hmem hdec
  show countOn isWordChar input option = none
  rw [countOn_eq, decodeAll_none (linesOf input) l hmem hdec]
  rfl

/-- Witness for C3: the byte sequence of the repository's own test
`word_count_o_not_contain_unknown_words` (`a`, `0xf9 0x90 0x80`,
`0xe3 0x81 0x82`) makes `count` fail with no table. -/
theorem C3_invalid_utf8_fatal_witness :
    count [97, 249, 144, 128, 227, 129, 130] CountOption.Word = none :=
  C3_invalid_utf8_fatal [97, 249, 144, 128, 227, 129, 130] CountOption.Word
    [97, 249, 144, 128, 227, 129, 130] (by decide) (by decide)

/-- C4: the empty input has zero lines, and `count` returns the empty
table — `some []`, never a failure — in each of the three modes. -/
theorem C4_empty_input :
    ∀ option : CountOption, count [] option = some [] := by
  intro option
  rfl

/-- C5: a line of only non-word characters contributes no tokens under
`Word` mode, and the empty string is never a key of a `Word`-mode table.
Stated for an arbitrary word-character class `isW`, hence in particular
for the regex crate's Unicode-aware `\w`: the hypothesis is that every
character of the line is outside the matcher's own class. -/
theorem C5_separator_only_line :
    (∀ (isW : Char → Bool) (cs : List Char), (∀ c ∈ cs, isW c = false) →
      tokensOfLine isW CountOption.Word cs = []) ∧
    (∀ (isW : Char → Bool) (input : List Nat) (t : Freqs),
      countOn isW input CountOption.Word = some t → "" ∉ keys t) := by
  constructor
  · intro isW cs hsep
    simp [tokensOfLine, wordRuns_eq_nil isW cs hsep]
  · intro isW input t ht hmem
    exact (word_key_prop isW input t ht "" hmem).1 rfl

/-- Witness for C5: the all-separator line `" ., "` produces no tokens at
the ASCII instance of the class. -/
theorem C5_separator_only_line_witness :
    tokensOfLine isWordChar CountOption.Word [' ', '.', ',', ' '] = [] :=
  C5_separator_only_line.1 isWordChar [' ', '.', ',', ' '] (by decide)

/-- C6: with mode `Char`, every key is the string of a single Unicode
scalar value (no grapheme clustering), each code point's entry counts its
occurrences across all lines, and the single-line input `"ab"` yields
exactly `{"a": 1, "b": 1}`. -/
theorem C6_char_mode :
    (∀ (input : List Nat) (ls : List (List Char)) (t : Freqs),
      decodeAll (linesOf input) = some ls →
      count input CountOption.Char = some t →
      (∀ k ∈ keys t, ∃ c : Char, k = String.mk [c]) ∧
      (∀ c : Char, lookupD t (String.mk [c]) =
        (ls.map (fun cs => occs c cs)).sum)) ∧
    count [97, 98] CountOption.Char = some [("a", 1), ("b", 1)] := by
  have hinj : ∀ a b : Char, String.mk [a] = String.mk [b] → a = b := by
    intro a b h
    simpa using congrArg String.data h
  refine ⟨?_, by decide⟩
  intro input ls t hls ht
  have ht' : countOn isWordChar input CountOption.Char = some t := ht
  constructor
  · intro k hk
    rcases countOn_mem_keys isWordChar input CountOption.Char t ht' k hk with
      ⟨ls', hls', cs, hcs, hk2⟩
    simp only [tokensOfLine, List.mem_map] at hk2
    rcases hk2 with ⟨c, hc, rfl⟩
    exact ⟨c, rfl⟩
  · intro c
    rw [countOn_lookupD isWordChar input CountOption.Char ls t hls ht']
    have hline : ∀ cs : List Char,
        occs (String.mk [c]) (tokensOfLine isWordChar CountOption.Char cs) =
          occs c cs := by
      intro cs
      simp only [tokensOfLine]
      exact occs_map_inj (fun c => String.mk [c]) hinj cs c
    rw [show allTokens isWordChar CountOption.Char ls =
      ls.flatMap (tokensOfLine isWordChar CountOption.Char) from rfl]
    rw [occs_flatMap]
    simp only [hline]

/-- Witness for C6: on the input `"ab"`, the entry of `"a"` counts the
occurrences of the scalar value `a` across the lines. -/
theorem C6_char_mode_witness :
    lookupD [("a", 1), ("b", 1)] (String.mk ['a']) =
      ([['a', 'b']].map (fun cs => occs 'a' cs)).sum :=
  (C6_char_mode.1 [97, 98] [['a', 'b']] [("a", 1), ("b", 1)]
    (by decide) (by decide)).2 'a'

/-- C7: with mode `Line`, each entire line — its `\n` or `\r\n` terminator
already stripped by the line splitter — is a single token whose entry
counts the equal lines, and the two-line input `"hello\r\nhello"` yields
exactly `{"hello": 2}`. -/
theorem C7_line_mode :
    (∀ pre rest : List Nat, 10 ∉ pre → pre.getLast? ≠ some 13 →
      linesOf (pre ++ 10 :: rest) = pre :: linesOf rest) ∧
    (∀ pre rest : List Nat, 10 ∉ pre →
      linesOf ((pre ++ [13]) ++ 10 :: rest) = pre :: linesOf rest) ∧
    (∀ (input : List Nat) (ls : List (List Char)) (t : Freqs),
      decodeAll (linesOf input) = some ls →
      count input CountOption.Line = some t →
      ∀ s : String, lookupD t s = occs s.data ls) ∧
    count [104, 101, 108, 108, 111, 13, 10, 104, 101, 108, 108, 111]
      CountOption.Line = some [("hello", 2)] := by
  have hinj : ∀ a b : List Char, String.mk a = String.mk b → a = b := by
    intro a b h
    simpa using congrArg String.data h
  refine ⟨linesOf_append_newline, linesOf_append_crlf, ?_, by decide⟩
  intro input ls t hls ht s
  have ht' : countOn isWordChar input CountOption.Line = some t := ht
  rw [countOn_lookupD isWordChar input CountOption.Line ls t hls ht']
  rw [allTokens_line isWordChar ls]
  calc occs s (ls.map String.mk)
      = occs (String.mk s.data) (ls.map String.mk) := rfl
    _ = occs s.data ls := occs_map_inj String.mk hinj ls s.data

/-- Witness for C7: on the concrete two-line input, the key `"hello"`
counts the decoded lines equal to it. -/
theorem C7_line_mode_witness :
    lookupD [("hello", 2)] "hello" =
      occs "hello".data
        ([['h', 'e', 'l', 'l', 'o'], ['h', 'e', 'l', 'l', 'o']] :
          List (List Char)) :=
  C7_line_mode.2.2.1 [104, 101, 108, 108, 111, 13, 10, 104, 101, 108, 108, 111]
    [['h', 'e', 'l', 'l', 'o'], ['h', 'e', 'l', 'l', 'o']] [("hello", 2)]
    (by decide) (by decide) "hello"

/-- C8: `count` is deterministic — on byte-identical inputs with the same
mode, the outcomes coincide, and any two returned tables are equal as
mappings: identical key sets and identical per-key counts, independently
of entry order. -/
theorem C8_deterministic :
    ∀ (input₁ input₂ : List Nat) (option : CountOption),
      input₁ = input₂ →
      count input₁ option = count input₂ option ∧
      ∀ t₁ t₂ : Freqs, count input₁ option = some t₁ →
        count input₂ option = some t₂ →
        (∀ k, k ∈ keys t₁ ↔ k ∈ keys t₂) ∧
        (∀ k, lookupD t₁ k = lookupD t₂ k) := by
  intro input₁ input₂ option h
  subst h
  refine ⟨rfl, ?_⟩
  intro t₁ t₂ h1 h2
  rw [h1] at h2
  obtain rfl : t₁ = t₂ := by injection h2
  exact ⟨fun k => Iff.rfl, fun k => rfl⟩

/-- Witness for C8: two byte-identical copies of the input `"ab"` give the
same outcome. -/
theorem C8_deterministic_witness :
    count [97, 98] CountOption.Char = count [97, 98] CountOption.Char :=
  (C8_deterministic [97, 98] [97, 98] CountOption.Char rfl).1

/-- C9: counts are non-negative and never decrease as lines (and the
tokens within a line) are processed, and each token occurrence increments
exactly its own entry by exactly one, leaving every other entry
unchanged. -/
theorem C9_monotone_counts :
    (∀ (option : CountOption) (lines : List (List Nat)) (t t' : Freqs)
      (k : String), countGo option lines t = some t' →
        lookupD t k ≤ lookupD t' k) ∧
    (∀ (t : Freqs) (ts : List String) (k : String),
      lookupD t k ≤ lookupD (List.foldl incr t ts) k) ∧
    (∀ (t : Freqs) (k : String), lookupD (incr t k) k = lookupD t k + 1) ∧
    (∀ (t : Freqs) (k s : String), k ≠ s →
      lookupD (incr t s) k = lookupD t k) ∧
    (∀ (t : Freqs) (k : String), 0 ≤ lookupD t k) := by
  have hfold : ∀ (t : Freqs) (ts : List String) (k : String),
      lookupD t k ≤ lookupD (List.foldl incr t ts) k := by
    intro t ts k
    rw [lookupD_foldl_incr]
    omega
  refine ⟨?_, hfold, lookupD_incr_self,
    fun t k s h => lookupD_incr_ne t s k h, fun t k => Nat.zero_le _⟩
  intro option lines t t' k h
  have h' : countGoOn isWordChar option lines t = some t' := h
  rw [countGoOn_eq] at h'
  cases hd : decodeAll lines with
  | none => rw [hd] at h'; simp at h'
  | some ls =>
    rw [hd] at h'
    simp only [Option.map_some'] at h'
    obtain rfl : List.foldl incr t (allTokens isWordChar option ls) = t' := by
      injection h'
    exact hfold t (allTokens isWordChar option ls) k

/-- Witness for C9: processing the single line `"ab"` in `Char` mode never
decreases the (initially absent) entry of `"a"`. -/
theorem C9_monotone_counts_witness :
    lookupD [] "a" ≤ lookupD [("a", 1), ("b", 1)] "a" :=
  C9_monotone_counts.1 CountOption.Char [[97, 98]] [] [("a", 1), ("b", 1)]
    "a" (by decide)

/-- C10: every key present in a returned table has count at least 1 — a
zero-count key is never observable, in any mode. -/
theorem C10_keys_positive :
    ∀ (input : List Nat) (option : CountOption) (t : Freqs),
      count input option = some t → ∀ k ∈ keys t, 1 ≤ lookupD t k := by
  intro input option t ht k hk
  have ht' : countOn isWordChar input option = some t := ht
  rcases (countOn_eq_some isWordChar input option t).mp ht' with ⟨ls, hls, rfl⟩
  exact lookupD_pos_of_mem_keys _ k (foldl_incr_pos _ [] (by simp)) hk

/-- Witness for C10: in the table of `"aa bb cc bb"` under `Word` mode,
the key `"aa"` has a positive count. -/
theorem C10_keys_positive_witness :
    1 ≤ lookupD [("aa", 1), ("bb", 2), ("cc", 1)] "aa" :=
  C10_keys_positive [97, 97, 32, 98, 98, 32, 99, 99, 32, 98, 98]
    CountOption.Word [("aa", 1), ("bb", 2), ("cc", 1)] (by decide)
    "aa" (by decide)

end Wordcount
